import Mathlib

/-!
# Verification of the cora large-scale-structure numerical pipeline

Shallow embedding of the numerical core of `cora/signal/corrfunc.py` and
`cora/signal/lss.py` over the real numbers, together with proofs of the
specification's claims about them.  Machine floats are modelled by `ℝ`;
external collaborators (scipy quadrature nodes, Legendre polynomial tables,
Romberg coefficient vectors, the healpix pixelisation primitive and the
hankl FFTLog radius grid) enter as explicit parameters, exactly as the
specification treats them as narrow external interfaces.
-/

namespace Cora

/-! ## Richardson extrapolation (`corrfunc.richardson`)

The Python function builds the triangular table row by row; successive
entries of a new row cancel one more power of the error term using the
previous row.  `newRowAux` produces the tail of a new row (everything after
the raw estimate), consuming the previous row; `richardsonLastRow` folds
this over the estimates; `richardson` returns the apex entry
`table[k-1][k-1]` (the `return_table=False` path), as `none` when the
estimate list is empty (where the Python indexing would fail). -/

noncomputable def newRowAux (t : ℝ) (basePow : ℕ) : ℕ → ℝ → List ℝ → List ℝ
  | _, _, [] => []
  | col, last, p :: ps =>
    let n := col * basePow
    let r := (t ^ n * last - p) / (t ^ n - 1)
    r :: newRowAux t basePow (col + 1) r ps

noncomputable def richardsonLastRow (t : ℝ) (basePow : ℕ) :
    List ℝ → List ℝ → List ℝ
  | prev, [] => prev
  | prev, e :: rest => richardsonLastRow t basePow (e :: newRowAux t basePow 1 e prev) rest

noncomputable def richardson (estimates : List ℝ) (t : ℝ) (basePow : ℕ := 1) : Option ℝ :=
  (richardsonLastRow t basePow [] estimates).getLast?

end Cora

/-- A quick sanity check: for a single estimate the apex is the estimate. -/
theorem Cora.richardson_single (e : ℝ) (t : ℝ) : Cora.richardson [e] t = some e := by
  simp [Cora.richardson, Cora.richardsonLastRow, Cora.newRowAux]

/-- C3: for every real limit `L`, coefficient `c`, initial step `h0 > 0` and ratio
`t > 1`, applying `richardson` (the `return_table=False` path) with `base_pow = p`
to the three-entry sequence `e_i = L + c * (h0 / t^i)^p` - a series with a single
analytic error term of power `p` and no higher-order remainder - returns the apex
of the triangular table, and that apex equals `L` exactly. -/
theorem Cora.richardson_apex_exact (L c h0 t : ℝ) (p : ℕ) (ht : 1 < t) (hp : 1 ≤ p)
    (_hh0 : 0 < h0) :
    Cora.richardson [L + c * (h0 / t ^ 0) ^ p, L + c * (h0 / t ^ 1) ^ p,
      L + c * (h0 / t ^ 2) ^ p] t p = some L := by
  have ht0 : (0:ℝ) < t := lt_trans one_pos ht
  have htne : t ≠ 0 := ne_of_gt ht0
  have htp : (1:ℝ) < t ^ p := one_lt_pow₀ ht (by omega)
  have h1 : t ^ p - 1 ≠ 0 := sub_ne_zero.mpr (ne_of_gt htp)
  have ht2p : (1:ℝ) < t ^ (2 * p) := one_lt_pow₀ ht (by omega)
  have h2 : t ^ (2 * p) - 1 ≠ 0 := sub_ne_zero.mpr (ne_of_gt ht2p)
  have hpow : ∀ n : ℕ, (t ^ n) ^ p = t ^ (n * p) := fun n => (pow_mul t n p).symm
  simp only [Cora.richardson, Cora.richardsonLastRow, Cora.newRowAux,
    List.getLast?, Option.some.injEq, one_mul]
  field_simp
  ring

/-- Witness for C3 at `L = 0`, `c = 1`, `h0 = 1`, `t = 2`, `p = 1`. -/
theorem Cora.richardson_apex_exact_witness :
    (1:ℝ) < 2 ∧ 1 ≤ 1 ∧ (0:ℝ) < 1 ∧
      Cora.richardson [0 + 1 * ((1:ℝ) / 2 ^ 0) ^ 1, 0 + 1 * ((1:ℝ) / 2 ^ 1) ^ 1,
        0 + 1 * ((1:ℝ) / 2 ^ 2) ^ 1] 2 1 = some 0 :=
  ⟨by norm_num, le_refl 1, by norm_num,
    Cora.richardson_apex_exact 0 1 1 2 1 (by norm_num) (le_refl 1) (by norm_num)⟩

namespace Cora

/-! ## Lognormal transform (`lss.lognormal_transform`)

The Python function operates slice-by-slice along the chosen transform axis
(`axis=None` flattens the array, which is the same computation on the
flattened slice), so it is embedded on a single slice of length `n`:
`out = exp(field - var/2) - 1` where `var` is the numpy population variance
of the slice. -/

/-- The numpy mean of the first `n` entries. -/
noncomputable def npMean (n : ℕ) (x : ℕ → ℝ) : ℝ :=
  (∑ q ∈ Finset.range n, x q) / n

/-- The numpy (population) variance of the first `n` entries. -/
noncomputable def npVar (n : ℕ) (x : ℕ → ℝ) : ℝ :=
  (∑ q ∈ Finset.range n, (x q - npMean n x) ^ 2) / n

/-- `lss.lognormal_transform` along one slice of the transform axis: the code
copies the field, subtracts `var/2`, exponentiates in place and subtracts 1. -/
noncomputable def lognormalTransform (n : ℕ) (field : ℕ → ℝ) : ℕ → ℝ :=
  fun p => Real.exp (field p - npVar n field / 2) - 1

end Cora

/-- C2 counterexample: for the finite (non-Gaussian) two-pixel field `(0, 2)`
the mean of `exp(out)` over the transform axis is strictly greater than `5/4`,
so it does not equal `1.0`: the variance-correction term does not make the
exponential mean one for arbitrary finite fields. -/
theorem Cora.lognormal_exp_mean_counterexample :
    (∑ p ∈ Finset.range 2,
        Real.exp (Cora.lognormalTransform 2 (fun q => if q = 0 then 0 else 2) p)) / 2
      ≠ 1 := by
  have hvar : Cora.npVar 2 (fun q => if q = 0 then 0 else 2) = 1 := by
    simp [Cora.npVar, Cora.npMean, Finset.sum_range_succ]
    norm_num
  have hout1 : Cora.lognormalTransform 2 (fun q => if q = 0 then 0 else 2) 1
      = Real.exp (3 / 2) - 1 := by
    simp [Cora.lognormalTransform, hvar]
    norm_num
  have hexp32 : (5 / 2 : ℝ) ≤ Real.exp (3 / 2) := by
    have := Real.add_one_le_exp (3 / 2 : ℝ)
    linarith
  have hge : (5 / 2 : ℝ) ≤ Real.exp (Real.exp (3 / 2) - 1) := by
    have h1 : (3 / 2 : ℝ) ≤ Real.exp (3 / 2) - 1 := by linarith
    calc (5 / 2 : ℝ) ≤ Real.exp (3 / 2) := hexp32
    _ ≤ Real.exp (Real.exp (3 / 2) - 1) := Real.exp_le_exp.mpr (by linarith)
  have hpos : 0 < Real.exp (Cora.lognormalTransform 2
      (fun q => if q = 0 then 0 else 2) 0) := Real.exp_pos _
  have hsum : (∑ p ∈ Finset.range 2,
      Real.exp (Cora.lognormalTransform 2 (fun q => if q = 0 then 0 else 2) p))
      = Real.exp (Cora.lognormalTransform 2 (fun q => if q = 0 then 0 else 2) 0)
        + Real.exp (Real.exp (3 / 2) - 1) := by
    rw [Finset.sum_range_succ, Finset.sum_range_one, hout1]
  intro h
  rw [hsum] at h
  nlinarith

/-- C2 amended: for every finite input field and slice length, every entry of
the lognormal-transformed field is strictly greater than `-1` (the transform
guarantees density contrast `> -1`); the exponential-mean-one property does not
hold pointwise for arbitrary finite fields. -/
theorem Cora.lognormal_entries_gt_neg_one (n : ℕ) (field : ℕ → ℝ) (p : ℕ) :
    -1 < Cora.lognormalTransform n field p := by
  have := Real.exp_pos (field p - Cora.npVar n field / 2)
  simp only [Cora.lognormalTransform]
  linarith

namespace Cora

/-! ## Fingers-of-God kernel (`lss.exponential_FoG_kernel`)

Arrays of length `n` are embedded as functions `ℕ → ℝ` (entries beyond `n`
are irrelevant).  `calculateWidth` mirrors `lss._calculate_width`, including
its in-place assignment order: the interior widths are written first, then
`widths[0]` (reading `widths[1]`, which is still zero when `n = 2`), then
`widths[n-1]` (reading `widths[n-2]`, which is `widths[0]` when `n = 2`). -/

/-- Interior pass of `_calculate_width`: `widths[1:-1] = (c[2:] - c[:-2])/2`. -/
noncomputable def calcWidthPre (n : ℕ) (c : ℕ → ℝ) (i : ℕ) : ℝ :=
  if 1 ≤ i ∧ i ≤ n - 2 then (c (i + 1) - c (i - 1)) / 2 else 0

/-- `widths[0] = 2*(c[1] - widths[1]/2 - c[0])`, read after the interior pass. -/
noncomputable def calcWidth0 (n : ℕ) (c : ℕ → ℝ) : ℝ :=
  2 * (c 1 - calcWidthPre n c 1 / 2 - c 0)

/-- `widths[-1] = 2*(c[-1] - widths[-2]/2 - c[-2])`; for `n = 2` the entry
`widths[-2]` is `widths[0]`, already overwritten by the previous line. -/
noncomputable def calcWidthLast (n : ℕ) (c : ℕ → ℝ) : ℝ :=
  2 * (c (n - 1) -
    (if n - 2 = 0 then calcWidth0 n c else calcWidthPre n c (n - 2)) / 2 - c (n - 2))

/-- `lss._calculate_width`: estimated bin widths from bin centres, made positive. -/
noncomputable def calculateWidth (n : ℕ) (c : ℕ → ℝ) (i : ℕ) : ℝ :=
  |if i = 0 then calcWidth0 n c
   else if i = n - 1 then calcWidthLast n c else calcWidthPre n c i|

/-- The exponential rate `a = sqrt(2)/sigmaP` of the FoG kernel. -/
noncomputable def fogA (sigmaP : ℕ → ℝ) (i : ℕ) : ℝ := Real.sqrt 2 / sigmaP i

/-- The local `sinhc` helper of `exponential_FoG_kernel` (`sinh(x)/x`). -/
noncomputable def sinhc (x : ℝ) : ℝ := Real.sinh x / x

/-- The un-normalised FoG kernel: off the diagonal
`K[i,j] = exp(-a[i]*|chi[i]-chi[j]|) * sinhc(a[i]*dchi[j]/2)`.  The code then
calls `np.fill_diagonal(K, vals)` with `vals` a full `(n, n)` matrix; numpy
flattens `vals` row-major and writes its first `n` entries on the diagonal, so
`K[i,i] = exp(-a[0]*dchi[i]/4) * sinhc(a[0]*dchi[i]/4)` uses the rate of
radial bin 0 for every diagonal entry. -/
noncomputable def fogKpre (n : ℕ) (chi sigmaP : ℕ → ℝ) (i j : ℕ) : ℝ :=
  if i = j then
    Real.exp (-(fogA sigmaP 0) * calculateWidth n chi i / 4) *
      sinhc (fogA sigmaP 0 * calculateWidth n chi i / 4)
  else
    Real.exp (-(fogA sigmaP i) * |chi i - chi j|) *
      sinhc (fogA sigmaP i * calculateWidth n chi j / 2)

/-- `lss.exponential_FoG_kernel`: the raw kernel is row-normalised, then the
growth factor is divided out of each column and re-applied to each row. -/
noncomputable def exponentialFoGKernel (n : ℕ) (chi sigmaP D : ℕ → ℝ) (i j : ℕ) : ℝ :=
  (fogKpre n chi sigmaP i j / ∑ k ∈ Finset.range n, fogKpre n chi sigmaP i k) / D j * D i

end Cora

/-- Positivity of `sinhc` on positive arguments. -/
theorem Cora.sinhc_pos {x : ℝ} (hx : 0 < x) : 0 < Cora.sinhc x :=
  div_pos (Real.sinh_pos_iff.mpr hx) hx

/-- The bin widths of the concrete grid `chi = (0, 1, 2)` are all 1. -/
theorem Cora.cexWidth_eq_one (j : ℕ) (hj : j < 3) :
    Cora.calculateWidth 3 (fun i => (i : ℝ)) j = 1 := by
  interval_cases j <;>
    norm_num [Cora.calculateWidth, Cora.calcWidth0, Cora.calcWidthLast,
      Cora.calcWidthPre]

/-- All raw kernel entries are positive on the concrete grid `chi = (0, 1, 2)`
with `sigmaP = 1`. -/
theorem Cora.cexKpre_pos (i j : ℕ) (hi : i < 3) (hj : j < 3) :
    0 < Cora.fogKpre 3 (fun i => (i : ℝ)) (fun _ => 1) i j := by
  have hs2 : (0 : ℝ) < Real.sqrt 2 := Real.sqrt_pos.mpr (by norm_num)
  have ha : ∀ k, Cora.fogA (fun _ => (1 : ℝ)) k = Real.sqrt 2 := fun k => by
    simp [Cora.fogA]
  rw [Cora.fogKpre]
  split
  · refine mul_pos (Real.exp_pos _) (Cora.sinhc_pos ?_)
    rw [ha, Cora.cexWidth_eq_one i hi]
    positivity
  · refine mul_pos (Real.exp_pos _) (Cora.sinhc_pos ?_)
    rw [ha, Cora.cexWidth_eq_one j hj]
    positivity

/-- The raw row-0 sum is positive on the concrete grid. -/
theorem Cora.cexRowSum_pos :
    0 < ∑ k ∈ Finset.range 3, Cora.fogKpre 3 (fun i => (i : ℝ)) (fun _ => 1) 0 k := by
  refine Finset.sum_pos (fun k hk => ?_) ⟨0, by norm_num⟩
  exact Cora.cexKpre_pos 0 k (by norm_num) (Finset.mem_range.mp hk)

/-- C1 counterexample: on the radial grid `chi = (0, 1, 2)` with the positive
smoothing scales `sigmaP = 1` and the positive but non-constant growth factors
`D = (1, 1, 2)`, row 0 of the matrix returned by `exponential_FoG_kernel` does
not sum to 1: the rows are normalised before the growth-factor correction, and
dividing column `j` by `D j` then multiplying row `i` by `D i` changes the row
sums whenever `D` is not constant. -/
theorem Cora.fog_growth_row_sum_counterexample :
    ∑ j ∈ Finset.range 3, Cora.exponentialFoGKernel 3 (fun i => (i : ℝ))
      (fun _ => 1) (fun j => if j = 2 then 2 else 1) 0 j ≠ 1 := by
  have hsum3 : ∀ f : ℕ → ℝ, ∑ j ∈ Finset.range 3, f j = f 0 + f 1 + f 2 := fun f => by
    rw [Finset.sum_range_succ, Finset.sum_range_succ, Finset.sum_range_one]
  have hA := Cora.cexKpre_pos 0 0 (by norm_num) (by norm_num)
  have hB := Cora.cexKpre_pos 0 1 (by norm_num) (by norm_num)
  have hC := Cora.cexKpre_pos 0 2 (by norm_num) (by norm_num)
  rw [hsum3]
  simp only [Cora.exponentialFoGKernel, hsum3]
  norm_num
  set A := Cora.fogKpre 3 (fun i => (i : ℝ)) (fun _ => 1) 0 0 with hAdef
  set B := Cora.fogKpre 3 (fun i => (i : ℝ)) (fun _ => 1) 0 1 with hBdef
  set C := Cora.fogKpre 3 (fun i => (i : ℝ)) (fun _ => 1) 0 2 with hCdef
  have hS : 0 < A + B + C := by linarith
  intro h
  field_simp at h
  nlinarith [hS, hC, hA, hB]

/-- C1 amended: the raw FoG kernel is normalised per row, so each row of the
returned matrix sums to 1 whenever the growth factor `D` is constant across
radial bins (and the raw row sum is nonzero); for non-constant `D` the
growth-factor correction changes the row sums and the property fails. -/
theorem Cora.fog_row_sum_one_of_constant_growth (n : ℕ) (chi sigmaP : ℕ → ℝ)
    (d : ℝ) (i : ℕ) (hd : d ≠ 0)
    (hrow : ∑ k ∈ Finset.range n, Cora.fogKpre n chi sigmaP i k ≠ 0) :
    ∑ j ∈ Finset.range n,
      Cora.exponentialFoGKernel n chi sigmaP (fun _ => d) i j = 1 := by
  simp only [Cora.exponentialFoGKernel]
  have hcancel : ∀ j : ℕ,
      Cora.fogKpre n chi sigmaP i j /
          (∑ k ∈ Finset.range n, Cora.fogKpre n chi sigmaP i k) / d * d
        = Cora.fogKpre n chi sigmaP i j /
          (∑ k ∈ Finset.range n, Cora.fogKpre n chi sigmaP i k) := fun j =>
    div_mul_cancel₀ _ hd
  simp only [hcancel]
  rw [← Finset.sum_div, div_self hrow]

/-- Witness for the amended C1 on the concrete grid `chi = (0, 1, 2)`,
`sigmaP = 1` and constant growth factor `D = 1`. -/
theorem Cora.fog_row_sum_one_of_constant_growth_witness :
    (1 : ℝ) ≠ 0 ∧
      (∑ k ∈ Finset.range 3, Cora.fogKpre 3 (fun i => (i : ℝ)) (fun _ => 1) 0 k) ≠ 0 ∧
      ∑ j ∈ Finset.range 3, Cora.exponentialFoGKernel 3 (fun i => (i : ℝ))
        (fun _ => 1) (fun _ => 1) 0 j = 1 :=
  ⟨one_ne_zero, ne_of_gt Cora.cexRowSum_pos,
    Cora.fog_row_sum_one_of_constant_growth 3 (fun i => (i : ℝ)) (fun _ => 1) 1 0
      one_ne_zero (ne_of_gt Cora.cexRowSum_pos)⟩

namespace Cora

/-! ## Biased field generation (`lss.GenerateBiasedFieldBase.process`)

Fields are `(n_shell, n_pixel)` arrays embedded as `ℕ → ℕ → ℝ`.  The optional
bias orders are modelled as `Option (ℝ → ℝ)`: the code catches
`NotImplementedError` from `_bias_1` / `_bias_2` and skips the corresponding
term, which is absence signalling, not failure.  The growth factor comes from
the external cosmology object as a function of redshift.  The local
offset/shape slicing in the code is the identity in the single-process
setting the task runs in.  The lognormal option applies
`lognormal_transform` with `axis=1`, i.e. per radial shell over the pixels. -/

/-- The accumulation in `GenerateBiasedFieldBase.process`: start from zero,
add the first-order term if implemented, then the second-order term if
implemented (with the per-shell pixel mean of `delta_L^2` subtracted). -/
noncomputable def biasedDelta (npix : ℕ) (growth : ℝ → ℝ) (z : ℕ → ℝ)
    (bias1 bias2 : Option (ℝ → ℝ)) (delta : ℕ → ℕ → ℝ) : ℕ → ℕ → ℝ :=
  fun i p =>
    let D := growth (z i) / growth 0
    let t1 : ℝ := match bias1 with
      | some b1 => D * b1 (z i) * delta i p
      | none => 0
    let t2 : ℝ := match bias2 with
      | some b2 => D ^ 2 * b2 (z i) *
          (delta i p ^ 2 - (∑ q ∈ Finset.range npix, delta i q ^ 2) / npix)
      | none => 0
    0 + t1 + t2

/-- `GenerateBiasedFieldBase.process` on the lightcone: bias accumulation
followed by the optional lognormal remap of each shell. -/
noncomputable def generateBiasedFieldProcess (npix : ℕ) (growth : ℝ → ℝ)
    (z : ℕ → ℝ) (bias1 bias2 : Option (ℝ → ℝ)) (lognormal : Bool)
    (delta : ℕ → ℕ → ℝ) : ℕ → ℕ → ℝ :=
  if lognormal then
    fun i => lognormalTransform npix (biasedDelta npix growth z bias1 bias2 delta i)
  else biasedDelta npix growth z bias1 bias2 delta

end Cora

/-- C5: with both bias orders implemented and the lognormal option off, the
biased field is `D(z) * b1(z) * delta_L + D(z)^2 * b2(z) * (delta_L^2 -
mean_pixels(delta_L^2))` with `D(z) = growth_factor(z) / growth_factor(0)`
normalised to 1 today. -/
theorem Cora.biased_field_formula (npix : ℕ) (growth : ℝ → ℝ) (z : ℕ → ℝ)
    (b1 b2 : ℝ → ℝ) (delta : ℕ → ℕ → ℝ) (i p : ℕ) :
    Cora.generateBiasedFieldProcess npix growth z (some b1) (some b2) false delta i p
      = growth (z i) / growth 0 * b1 (z i) * delta i p
        + (growth (z i) / growth 0) ^ 2 * b2 (z i) *
          (delta i p ^ 2 - (∑ q ∈ Finset.range npix, delta i q ^ 2) / npix) := by
  simp [Cora.generateBiasedFieldProcess, Cora.biasedDelta]

namespace Cora

/-! ## Pipeline stage allocation discipline

To state the frame claims about which stages allocate a fresh `BiasedLSS`
container and which mutate in place, container objects are modelled with an
explicit identity tag: a stage that creates a new container returns it under
a caller-supplied fresh id, a stage that mutates in place keeps the id of its
input.  Pure-value components of the external collaborators (the Zel'dovich
mass-assignment output, the finite-difference radial derivative of `phi`, the
shot-noise draw) are abstract parameters; the claims below only concern
allocation behaviour. -/

structure LSSField where
  objId : ℕ
  nchi : ℕ
  npix : ℕ
  chi : ℕ → ℝ
  redshift : ℕ → ℝ
  delta : ℕ → ℕ → ℝ

/-- `FingersOfGod.process`: `alpha_FoG == 0` short-circuits to returning the
input object itself; otherwise a new container is created and filled with the
kernel matrix-multiply along the radial axis (note the growth factor here is
`growth_factor(z)` without the normalisation by `growth_factor(0)`). -/
noncomputable def fingersOfGodProcess (alphaFoG : ℝ) (sigmaPModel growth : ℝ → ℝ)
    (freshId : ℕ) (field : LSSField) : LSSField :=
  if alphaFoG = 0 then field
  else
    let D : ℕ → ℝ := fun i => growth (field.redshift i)
    let sP : ℕ → ℝ := fun i => alphaFoG * sigmaPModel (field.redshift i)
    let K := exponentialFoGKernel field.nchi field.chi sP D
    { field with
      objId := freshId,
      delta := fun i p => ∑ j ∈ Finset.range field.nchi, K i j * field.delta j p }

/-- `GenerateBiasedFieldBase.process` at container level: always allocates a
new `BiasedLSS` copying axis metadata from its input. -/
noncomputable def biasFieldProcess (growth : ℝ → ℝ) (bias1 bias2 : Option (ℝ → ℝ))
    (lognormal : Bool) (freshId : ℕ) (field : LSSField) : LSSField :=
  { field with
    objId := freshId,
    delta := generateBiasedFieldProcess field.npix growth field.redshift
      bias1 bias2 lognormal field.delta }

/-- `LinearDynamics.process`: allocates a new container, copies the biased
field, adds the linear growth term and (in redshift space) the velocity term;
`diff2Phi` stands for the external finite-difference radial derivative of the
initial potential. -/
noncomputable def linearDynamicsProcess (growth growthRate : ℝ → ℝ)
    (redshiftSpace : Bool) (diff2Phi : ℕ → ℕ → ℝ) (freshId : ℕ)
    (initialField field : LSSField) : LSSField :=
  { field with
    objId := freshId,
    delta := fun i p =>
      field.delta i p + growth (field.redshift i) / growth 0 * initialField.delta i p
        + if redshiftSpace then
            -(growth (field.redshift i) / growth 0 * growthRate (field.redshift i))
              * diff2Phi i p
          else 0 }

/-- `ZeldovichDynamics.process`: always allocates a new container and fills it
through the (external) mass-assignment kernels, abstracted as `computeZa`. -/
noncomputable def zeldovichProcess (computeZa : LSSField → LSSField → ℕ → ℕ → ℝ)
    (freshId : ℕ) (initialField field : LSSField) : LSSField :=
  { field with objId := freshId, delta := computeZa initialField field }

/-- `AddCorrelatedShotNoise.process`: adds the deterministic shot-noise draw
to the input field in place and returns the same object. -/
noncomputable def addShotNoiseProcess (noise : ℕ → ℕ → ℝ) (field : LSSField) :
    LSSField :=
  { field with delta := fun i p => field.delta i p + noise i p }

end Cora

/-- C6 counterexample: with `alpha_FoG = 0`, `FingersOfGod.process` returns its
input object itself (the documented identity short-circuit), not a newly
created instance: with fresh id 1 available, the returned container is exactly
the input container with object id 0. -/
theorem Cora.fog_zero_alpha_returns_input :
    Cora.fingersOfGodProcess 0 (fun _ => 1) (fun _ => 1) 1
        ⟨0, 1, 1, fun _ => 0, fun _ => 0, fun _ _ => 0⟩
      = ⟨0, 1, 1, fun _ => 0, fun _ => 0, fun _ _ => 0⟩ := by
  simp [Cora.fingersOfGodProcess]

/-- C6 amended: every evolving stage (bias application, linear and Zel'dovich
dynamics, Fingers-of-God smoothing with `alpha_FoG ≠ 0`) returns a freshly
allocated container carrying the caller's fresh id, and the shot-noise stage
is in place (it keeps its input's id); the exception is `FingersOfGod.process`
with `alpha_FoG = 0`, which returns the input object itself. -/
theorem Cora.stages_fresh_instance_except_shot_noise
    (alphaFoG : ℝ) (ha : alphaFoG ≠ 0) (sigmaPModel growth growthRate : ℝ → ℝ)
    (bias1 bias2 : Option (ℝ → ℝ)) (lognormal redshiftSpace : Bool)
    (computeZa : Cora.LSSField → Cora.LSSField → ℕ → ℕ → ℝ)
    (diff2Phi noise : ℕ → ℕ → ℝ) (freshId : ℕ)
    (initialField field : Cora.LSSField) :
    (Cora.fingersOfGodProcess alphaFoG sigmaPModel growth freshId field).objId
        = freshId ∧
      (Cora.biasFieldProcess growth bias1 bias2 lognormal freshId field).objId
        = freshId ∧
      (Cora.linearDynamicsProcess growth growthRate redshiftSpace diff2Phi
          freshId initialField field).objId = freshId ∧
      (Cora.zeldovichProcess computeZa freshId initialField field).objId = freshId ∧
      (Cora.addShotNoiseProcess noise field).objId = field.objId := by
  refine ⟨?_, rfl, rfl, rfl, rfl⟩
  simp [Cora.fingersOfGodProcess, ha]

/-- Witness for the amended C6 at `alpha_FoG = 1` on a concrete container. -/
theorem Cora.stages_fresh_instance_witness :
    (1 : ℝ) ≠ 0 ∧
      ((Cora.fingersOfGodProcess 1 (fun _ => 1) (fun _ => 1) 7
          ⟨0, 1, 1, fun _ => 0, fun _ => 0, fun _ _ => 0⟩).objId = 7 ∧
        (Cora.biasFieldProcess (fun _ => 1) none none false 7
          ⟨0, 1, 1, fun _ => 0, fun _ => 0, fun _ _ => 0⟩).objId = 7 ∧
        (Cora.linearDynamicsProcess (fun _ => 1) (fun _ => 1) false (fun _ _ => 0) 7
          ⟨0, 1, 1, fun _ => 0, fun _ => 0, fun _ _ => 0⟩
          ⟨0, 1, 1, fun _ => 0, fun _ => 0, fun _ _ => 0⟩).objId = 7 ∧
        (Cora.zeldovichProcess (fun _ _ _ _ => 0) 7
          ⟨0, 1, 1, fun _ => 0, fun _ => 0, fun _ _ => 0⟩
          ⟨0, 1, 1, fun _ => 0, fun _ => 0, fun _ _ => 0⟩).objId = 7 ∧
        (Cora.addShotNoiseProcess (fun _ _ => 0)
          ⟨0, 1, 1, fun _ => 0, fun _ => 0, fun _ _ => 0⟩).objId
            = (⟨0, 1, 1, fun _ => 0, fun _ => 0, fun _ _ => 0⟩ : Cora.LSSField).objId) :=
  ⟨one_ne_zero,
    Cora.stages_fresh_instance_except_shot_noise 1 one_ne_zero (fun _ => 1)
      (fun _ => 1) (fun _ => 1) none none false false (fun _ _ _ _ => 0)
      (fun _ _ => 0) (fun _ _ => 0) 7
      ⟨0, 1, 1, fun _ => 0, fun _ => 0, fun _ _ => 0⟩
      ⟨0, 1, 1, fun _ => 0, fun _ => 0, fun _ _ => 0⟩⟩

namespace Cora

/-! ## Richardson-Hankel radius grids (`corrfunc._corr_hankl_richardson`)

The `hankl` library is an external collaborator: for a log-spaced input grid
`k` of `N` points with `lowring=False` (the `k*r` product pinned to 1), its
FFTLog returns the log-spaced radius grid `r[j] = 1 / k[N-1-j]`.  The `k`
grid of `_work` is `np.logspace(-rhigh, -rlow, N, endpoint=False)` over the
limits padded by `pad_low = 2` and `pad_high = 1` decades, and the result is
decimated as `r[(u-1)::u]` at upsampling factor `u = 2^ii`. -/

/-- The padded, log-spaced `k` grid of `_corr_hankl_richardson._work`. -/
noncomputable def hanklKGrid (rlowPad rhighPad : ℝ) (N j : ℕ) : ℝ :=
  (10 : ℝ) ^ (-rhighPad + j * (rhighPad - rlowPad) / N)

/-- The radius grid returned by the external `hankl.P2xi` for that `k` grid. -/
noncomputable def hanklRGrid (rlowPad rhighPad : ℝ) (N j : ℕ) : ℝ :=
  (hanklKGrid rlowPad rhighPad N (N - 1 - j))⁻¹

/-- Entry `m` of the decimated radius grid at upsampling factor `2^ii`. -/
noncomputable def decimatedRGrid (logrmin logrmax : ℝ) (spd : ℕ) (ii m : ℕ) : ℝ :=
  let rlowPad := logrmin - 2
  let rhighPad := logrmax + 1
  let n := ⌊(spd : ℝ) * (rhighPad - rlowPad)⌋₊
  let u := 2 ^ ii
  hanklRGrid rlowPad rhighPad (n * u) (u - 1 + m * u)

end Cora

/-- Index arithmetic of the decimation: the reversed index of the `m`-th
decimated sample at upsampling `u` is `u` times the reversed index at `u = 1`. -/
theorem Cora.decimation_index (u n m : ℕ) (hu : 1 ≤ u) (hm : m < n) :
    n * u - 1 - (u - 1 + m * u) = u * (n - 1 - m) := by
  obtain ⟨d, rfl⟩ := Nat.exists_eq_add_of_lt hm
  have h1 : (m + d + 1) * u = m * u + d * u + u := by ring
  have h2 : m + d + 1 - 1 - m = d := by omega
  rw [h1, h2, Nat.mul_comm u d]
  generalize m * u = A
  generalize d * u = B
  omega

/-- C7: in the Richardson-Hankel large-r path, the decimated radius grids
produced at the successive upsampling factors `2^ii` coincide entry for entry
with the grid of the first factor, so the internal `allclose` consistency
check between them passes and no consistency error is signalled. -/
theorem Cora.hankl_richardson_radii_consistent (logrmin logrmax : ℝ) (spd : ℕ)
    (hlt : logrmin < logrmax) (hspd : 1 ≤ spd) (ii m : ℕ)
    (hm : m < ⌊(spd : ℝ) * (logrmax + 1 - (logrmin - 2))⌋₊) :
    Cora.decimatedRGrid logrmin logrmax spd ii m
      = Cora.decimatedRGrid logrmin logrmax spd 0 m := by
  have hu : 1 ≤ 2 ^ ii := Nat.one_le_two_pow
  have huR : ((2 : ℝ)) ^ ii ≠ 0 := by positivity
  set n := ⌊(spd : ℝ) * (logrmax + 1 - (logrmin - 2))⌋₊ with hn
  have hnpos : 0 < n := by
    rw [hn]
    refine Nat.floor_pos.mpr ?_
    have h1 : (1 : ℝ) ≤ (spd : ℝ) := by exact_mod_cast hspd
    nlinarith
  have hnR : ((n : ℝ)) ≠ 0 := by positivity
  simp only [Cora.decimatedRGrid, Cora.hanklRGrid, Cora.hanklKGrid, pow_zero,
    mul_one, Nat.sub_self, zero_add]
  rw [← hn]
  congr 2
  rw [Cora.decimation_index (2 ^ ii) n m hu hm]
  push_cast
  field_simp
  ring

/-- Witness for C7 at `logrmin = 0`, `logrmax = 1`, one sample per decade,
upsampling factor `2^1`, grid entry 0. -/
theorem Cora.hankl_richardson_radii_witness :
    (0 : ℝ) < 1 ∧ 1 ≤ 1 ∧ 0 < ⌊(1 : ℝ) * ((1 : ℝ) + 1 - ((0 : ℝ) - 2))⌋₊ ∧
      Cora.decimatedRGrid 0 1 1 1 0 = Cora.decimatedRGrid 0 1 1 0 0 :=
  ⟨by norm_num, le_refl 1, by norm_num,
    Cora.hankl_richardson_radii_consistent 0 1 1 (by norm_num) (le_refl 1) 1 0
      (by norm_num)⟩

namespace Cora

/-! ## Shape contracts of the Zel'dovich mass assignment
(`lss.za_density_grid`, `lss.za_density_sph`)

Only array shapes decide these claims, so arrays are embedded by their shape;
the numerical mass-assignment loops (which go through the external healpy
pixelisation primitive and the compiled `cora.util.pmesh` kernels) are
abstracted as a `compute` parameter producing the final contents of `out`.
Each function returns the validation outcome paired with the final state of
the caller's `out` array: the assertions run before the assignment loop, so
on a validation error `out` is returned unmodified. -/

structure NDArray where
  shape : List ℕ

inductive ShapeErr where
  | dims (name : String) (got expected : ℕ)
  | badShape (name : String) (got expected : List ℕ)

def ShapeErr.arrName : ShapeErr → String
  | .dims n _ _ => n
  | .badShape n _ _ => n

/-- `lss._assert_shape`: the dimension-count check runs first, then the exact
shape comparison; each error carries the offending array's name. -/
def assertShape (arr : NDArray) (s : List ℕ) (name : String) :
    Except ShapeErr Unit :=
  if arr.shape.length ≠ s.length then
    Except.error (ShapeErr.dims name arr.shape.length s.length)
  else if arr.shape ≠ s then Except.error (ShapeErr.badShape name arr.shape s)
  else Except.ok ()

/-- The four shape assertions shared by `za_density_grid` and
`za_density_sph`, in source order (`psi`, `delta_m`, `chi`, `out`), with
`(nchi, npix)` unpacked from `delta_bias.shape`. -/
def zaShapeCheck (psi delta_bias delta_m chi out : NDArray) :
    Except ShapeErr Unit :=
  match delta_bias.shape with
  | [nchi, npix] =>
    match assertShape psi [3, nchi, npix] "psi" with
    | .error e => .error e
    | .ok _ =>
      match assertShape delta_m [nchi, npix] "delta_m" with
      | .error e => .error e
      | .ok _ =>
        match assertShape chi [nchi] "chi" with
        | .error e => .error e
        | .ok _ => assertShape out [nchi, npix] "out"
  | sh => .error (.dims "delta_bias" sh.length 2)

/-- `lss.za_density_grid`: validation, then the grid mass-assignment loop. -/
def za_density_grid (computeGrid : NDArray → NDArray)
    (psi delta_bias delta_m chi out : NDArray) :
    Except ShapeErr Unit × NDArray :=
  match zaShapeCheck psi delta_bias delta_m chi out with
  | .ok _ => (.ok (), computeGrid out)
  | .error e => (.error e, out)

/-- `lss.za_density_sph`: the same validation, then the SPH loop. -/
def za_density_sph (computeSph : NDArray → NDArray)
    (psi delta_bias delta_m chi out : NDArray) :
    Except ShapeErr Unit × NDArray :=
  match zaShapeCheck psi delta_bias delta_m chi out with
  | .ok _ => (.ok (), computeSph out)
  | .error e => (.error e, out)

end Cora

/-- `_assert_shape` succeeds exactly when the shape matches the contract. -/
theorem Cora.assertShape_ok_iff (arr : Cora.NDArray) (s : List ℕ) (name : String) :
    Cora.assertShape arr s name = Except.ok () ↔ arr.shape = s := by
  unfold Cora.assertShape
  split_ifs with h1 h2
  · simp only [reduceCtorEq, false_iff]
    exact fun h => h1 (by rw [h])
  · simp only [reduceCtorEq, false_iff]
    exact h2
  · simpa using not_not.mp h2

/-- A failing `_assert_shape` names its own array, whose shape is wrong. -/
theorem Cora.assertShape_error_facts (arr : Cora.NDArray) (s : List ℕ)
    (name : String) (e : Cora.ShapeErr)
    (h : Cora.assertShape arr s name = Except.error e) :
    e.arrName = name ∧ arr.shape ≠ s := by
  unfold Cora.assertShape at h
  split_ifs at h with h1 h2
  · obtain rfl : Cora.ShapeErr.dims name arr.shape.length s.length = e := by
      simpa using h
    exact ⟨rfl, fun hs => h1 (by rw [hs])⟩
  · obtain rfl : Cora.ShapeErr.badShape name arr.shape s = e := by simpa using h
    exact ⟨rfl, h2⟩

/-- With a two-dimensional `delta_bias`, the validation reduces to the four
assertions in source order. -/
theorem Cora.zaShapeCheck_eq (psi delta_m chi out : Cora.NDArray)
    (nchi npix : ℕ) :
    Cora.zaShapeCheck psi ⟨[nchi, npix]⟩ delta_m chi out =
      match Cora.assertShape psi [3, nchi, npix] "psi" with
      | .error e => .error e
      | .ok _ =>
        match Cora.assertShape delta_m [nchi, npix] "delta_m" with
        | .error e => .error e
        | .ok _ =>
          match Cora.assertShape chi [nchi] "chi" with
          | .error e => .error e
          | .ok _ => Cora.assertShape out [nchi, npix] "out" := rfl

/-- The combined validation succeeds exactly when all four arrays conform. -/
theorem Cora.zaShapeCheck_ok_iff (psi delta_m chi out : Cora.NDArray)
    (nchi npix : ℕ) :
    Cora.zaShapeCheck psi ⟨[nchi, npix]⟩ delta_m chi out = Except.ok () ↔
      psi.shape = [3, nchi, npix] ∧ delta_m.shape = [nchi, npix] ∧
        chi.shape = [nchi] ∧ out.shape = [nchi, npix] := by
  rw [Cora.zaShapeCheck_eq]
  rcases h1 : Cora.assertShape psi [3, nchi, npix] "psi" with e1 | u1 <;>
    simp only [h1]
  · have hf := Cora.assertShape_error_facts _ _ _ _ h1
    simp only [reduceCtorEq, false_iff]
    exact fun hc => hf.2 hc.1
  · cases u1
    have hps := (Cora.assertShape_ok_iff psi [3, nchi, npix] "psi").mp h1
    rcases h2 : Cora.assertShape delta_m [nchi, npix] "delta_m" with e2 | u2 <;>
      simp only [h2]
    · have hf := Cora.assertShape_error_facts _ _ _ _ h2
      simp only [reduceCtorEq, false_iff]
      exact fun hc => hf.2 hc.2.1
    · cases u2
      have hdm := (Cora.assertShape_ok_iff delta_m [nchi, npix] "delta_m").mp h2
      rcases h3 : Cora.assertShape chi [nchi] "chi" with e3 | u3 <;>
        simp only [h3]
      · have hf := Cora.assertShape_error_facts _ _ _ _ h3
        simp only [reduceCtorEq, false_iff]
        exact fun hc => hf.2 hc.2.2.1
      · cases u3
        have hchi := (Cora.assertShape_ok_iff chi [nchi] "chi").mp h3
        rw [Cora.assertShape_ok_iff]
        constructor
        · exact fun h => ⟨hps, hdm, hchi, h⟩
        · exact fun h => h.2.2.2

/-- A failing combined validation names an array that is actually offending. -/
theorem Cora.zaShapeCheck_error_facts (psi delta_m chi out : Cora.NDArray)
    (nchi npix : ℕ) (e : Cora.ShapeErr)
    (h : Cora.zaShapeCheck psi ⟨[nchi, npix]⟩ delta_m chi out = Except.error e) :
    e.arrName = "psi" ∧ psi.shape ≠ [3, nchi, npix] ∨
      e.arrName = "delta_m" ∧ delta_m.shape ≠ [nchi, npix] ∨
      e.arrName = "chi" ∧ chi.shape ≠ [nchi] ∨
      e.arrName = "out" ∧ out.shape ≠ [nchi, npix] := by
  rw [Cora.zaShapeCheck_eq] at h
  rcases h1 : Cora.assertShape psi [3, nchi, npix] "psi" with e1 | u1 <;>
    simp only [h1] at h
  · obtain rfl : e1 = e := by simpa using h
    exact Or.inl (Cora.assertShape_error_facts _ _ _ _ h1)
  · cases u1
    rcases h2 : Cora.assertShape delta_m [nchi, npix] "delta_m" with e2 | u2 <;>
      simp only [h2] at h
    · obtain rfl : e2 = e := by simpa using h
      exact Or.inr (Or.inl (Cora.assertShape_error_facts _ _ _ _ h2))
    · cases u2
      rcases h3 : Cora.assertShape chi [nchi] "chi" with e3 | u3 <;>
        simp only [h3] at h
      · obtain rfl : e3 = e := by simpa using h
        exact Or.inr (Or.inr (Or.inl (Cora.assertShape_error_facts _ _ _ _ h3)))
      · cases u3
        exact Or.inr (Or.inr (Or.inr (Cora.assertShape_error_facts _ _ _ _ h)))

/-- C8: for both `za_density_grid` and `za_density_sph`, with `(nchi, npix)`
taken from `delta_bias.shape`, the validation succeeds exactly when `psi` has
shape `(3, nchi, npix)`, `delta_m` and `out` have shape `(nchi, npix)` and
`chi` has shape `(nchi,)`; any raised shape-mismatch error names an array
that actually violates its contract, and is raised before any element of the
caller's `out` array is modified. -/
theorem Cora.za_density_shape_contract (computeGrid computeSph :
      Cora.NDArray → Cora.NDArray)
    (psi delta_bias delta_m chi out : Cora.NDArray) (nchi npix : ℕ)
    (h2d : delta_bias.shape = [nchi, npix]) :
    ((Cora.za_density_grid computeGrid psi delta_bias delta_m chi out).1
          = Except.ok () ∧
        (Cora.za_density_sph computeSph psi delta_bias delta_m chi out).1
          = Except.ok ()
      ↔ psi.shape = [3, nchi, npix] ∧ delta_m.shape = [nchi, npix] ∧
          chi.shape = [nchi] ∧ out.shape = [nchi, npix]) ∧
    ∀ e : Cora.ShapeErr,
      (Cora.za_density_grid computeGrid psi delta_bias delta_m chi out).1
          = Except.error e ∨
        (Cora.za_density_sph computeSph psi delta_bias delta_m chi out).1
          = Except.error e →
      (Cora.za_density_grid computeGrid psi delta_bias delta_m chi out).2 = out ∧
      (Cora.za_density_sph computeSph psi delta_bias delta_m chi out).2 = out ∧
      (e.arrName = "psi" ∧ psi.shape ≠ [3, nchi, npix] ∨
        e.arrName = "delta_m" ∧ delta_m.shape ≠ [nchi, npix] ∨
        e.arrName = "chi" ∧ chi.shape ≠ [nchi] ∨
        e.arrName = "out" ∧ out.shape ≠ [nchi, npix]) := by
  obtain ⟨sh⟩ := delta_bias
  have hsh : sh = [nchi, npix] := h2d
  subst hsh
  rcases hc : Cora.zaShapeCheck psi ⟨[nchi, npix]⟩ delta_m chi out with e0 | u0
  · have hfacts := Cora.zaShapeCheck_error_facts _ _ _ _ _ _ _ hc
    have hnok : ¬(psi.shape = [3, nchi, npix] ∧ delta_m.shape = [nchi, npix] ∧
        chi.shape = [nchi] ∧ out.shape = [nchi, npix]) := by
      intro hall
      rcases hfacts with ⟨_, hne⟩ | ⟨_, hne⟩ | ⟨_, hne⟩ | ⟨_, hne⟩
      · exact hne hall.1
      · exact hne hall.2.1
      · exact hne hall.2.2.1
      · exact hne hall.2.2.2
    constructor
    · simp [Cora.za_density_grid, Cora.za_density_sph, hc, hnok]
    · intro e he
      have he0 : e0 = e := by
        simp only [Cora.za_density_grid, Cora.za_density_sph, hc] at he
        rcases he with h | h <;> simpa using h
      subst he0
      refine ⟨?_, ?_, hfacts⟩ <;>
        simp [Cora.za_density_grid, Cora.za_density_sph, hc]
  · cases u0
    have hok := (Cora.zaShapeCheck_ok_iff psi delta_m chi out nchi npix).mp hc
    constructor
    · simp [Cora.za_density_grid, Cora.za_density_sph, hc, hok]
    · intro e he
      simp only [Cora.za_density_grid, Cora.za_density_sph, hc] at he
      rcases he with h | h <;> simp at h

/-- Witness for C8 on conforming concrete shapes (`nchi = 1`, `npix = 12`). -/
theorem Cora.za_density_shape_contract_witness :
    (Cora.NDArray.mk [1, 12]).shape = [1, 12] ∧
      ((Cora.za_density_grid id ⟨[3, 1, 12]⟩ ⟨[1, 12]⟩ ⟨[1, 12]⟩ ⟨[1]⟩
            ⟨[1, 12]⟩).1 = Except.ok () ∧
          (Cora.za_density_sph id ⟨[3, 1, 12]⟩ ⟨[1, 12]⟩ ⟨[1, 12]⟩ ⟨[1]⟩
            ⟨[1, 12]⟩).1 = Except.ok ()
        ↔ (Cora.NDArray.mk [3, 1, 12]).shape = [3, 1, 12] ∧
          (Cora.NDArray.mk [1, 12]).shape = [1, 12] ∧
          (Cora.NDArray.mk [1]).shape = [1] ∧
          (Cora.NDArray.mk [1, 12]).shape = [1, 12]) ∧
      ∀ e : Cora.ShapeErr,
        (Cora.za_density_grid id ⟨[3, 1, 12]⟩ ⟨[1, 12]⟩ ⟨[1, 12]⟩ ⟨[1]⟩
            ⟨[1, 12]⟩).1 = Except.error e ∨
          (Cora.za_density_sph id ⟨[3, 1, 12]⟩ ⟨[1, 12]⟩ ⟨[1, 12]⟩ ⟨[1]⟩
            ⟨[1, 12]⟩).1 = Except.error e →
        (Cora.za_density_grid id ⟨[3, 1, 12]⟩ ⟨[1, 12]⟩ ⟨[1, 12]⟩ ⟨[1]⟩
            ⟨[1, 12]⟩).2 = ⟨[1, 12]⟩ ∧
        (Cora.za_density_sph id ⟨[3, 1, 12]⟩ ⟨[1, 12]⟩ ⟨[1, 12]⟩ ⟨[1]⟩
            ⟨[1, 12]⟩).2 = ⟨[1, 12]⟩ ∧
        (e.arrName = "psi" ∧ (Cora.NDArray.mk [3, 1, 12]).shape ≠ [3, 1, 12] ∨
          e.arrName = "delta_m" ∧ (Cora.NDArray.mk [1, 12]).shape ≠ [1, 12] ∨
          e.arrName = "chi" ∧ (Cora.NDArray.mk [1]).shape ≠ [1] ∨
          e.arrName = "out" ∧ (Cora.NDArray.mk [1, 12]).shape ≠ [1, 12]) :=
  ⟨rfl, Cora.za_density_shape_contract id id ⟨[3, 1, 12]⟩ ⟨[1, 12]⟩ ⟨[1, 12]⟩
    ⟨[1]⟩ ⟨[1, 12]⟩ 1 12 rfl⟩

namespace Cora

/-! ## Angular covariance builder (`corrfunc.corr_to_clarray`)

External collaborators are explicit parameters of the embedding: `mu` and `w`
are the Gauss-Legendre nodes and weights of `scipy.special.roots_legendre`
(`wsum` is their sum), `legP l x` is the Legendre polynomial value `P_l(x)`
tabulated by `legendre_array` through `scipy.special.lpn`, and `rombC` is the
coefficient vector of the fixed-order Romberg rule `scipy.integrate.romb` on
`2^xromb + 1` equally spaced samples, so `romb(y, dx) = dx * Σ_a rombC a * y a`.
The node-batching loop writes each batch of rows of `corr_array` exactly
once, so it leaves the computed values unchanged; what it can do is fail:
`np.array_split(np.arange(M), M // 50)` demands a positive number of sections
and raises `ValueError` whenever `M = q * lmax < 50`, which is modelled by
returning `none` in that case. -/

/-- The numerically stable law-of-cosines radius
`sqrt((x1 - x2)^2 + 2 x1 x2 (1 - mu))`. -/
noncomputable def lawOfCosinesR (m u v : ℝ) : ℝ :=
  Real.sqrt ((u - v) ^ 2 + 2 * u * v * (1 - m))

/-- The half bin width: `xwidth / 2` when given, else half the separation of
the first two sorted input distances. -/
noncomputable def clXhalf (nx : ℕ) (xarray : ℕ → ℝ) (xwidth : Option ℝ) : ℝ :=
  match xwidth with
  | some xw => xw / 2
  | none =>
    let xsort := (((List.range nx).map xarray).mergeSort fun a b => decide (a ≤ b))
    |xsort.getD 1 0 - xsort.getD 0 0| / 2

/-- The radial integration sub-points
`xa[i, a] = xarray[i] + linspace(-xhalf, xhalf, 2^xromb + 1)[a]`. -/
noncomputable def clXa (xarray : ℕ → ℝ) (xhalf : ℝ) (xromb : ℕ) (i a : ℕ) : ℝ :=
  xarray i + (-xhalf + a * (2 * xhalf / 2 ^ xromb))

/-- The sub-bin sample spacing `xspace = 2 * xhalf / 2^xromb`. -/
noncomputable def clXspace (nx : ℕ) (xarray : ℕ → ℝ) (xwidth : Option ℝ)
    (xromb : ℕ) : ℝ :=
  2 * clXhalf nx xarray xwidth / 2 ^ xromb

/-- One entry of `corr_array`: the correlation at the node radius, and for
`xromb > 0` the two nested Romberg passes (axis 4 then axis 2) over the
sub-bin samples, normalised by the squared bin width. -/
noncomputable def clCorrArr (corr : ℝ → ℝ) (xarray : ℕ → ℝ) (xromb : ℕ)
    (xwidth : Option ℝ) (nx : ℕ) (mu rombC : ℕ → ℝ) (k i j : ℕ) : ℝ :=
  if xromb = 0 then corr (lawOfCosinesR (mu k) (xarray i) (xarray j))
  else
    (clXspace nx xarray xwidth xromb * ∑ a ∈ Finset.range (2 ^ xromb + 1),
        rombC a * (clXspace nx xarray xwidth xromb *
          ∑ b ∈ Finset.range (2 ^ xromb + 1), rombC b *
            corr (lawOfCosinesR (mu k)
              (clXa xarray (clXhalf nx xarray xwidth) xromb i a)
              (clXa xarray (clXhalf nx xarray xwidth) xromb j b)))) /
      (2 * clXhalf nx xarray xwidth) ^ 2

/-- The value of the angular covariance array produced when the batching
succeeds: the Gauss-Legendre projection of `corr_array` onto the Legendre
polynomials, `C_l[i,j] = Σ_k w_k P_l(mu_k) ξ(r_k[i,j]) 4π / Σw`. -/
noncomputable def clarrayCore (corr : ℝ → ℝ) (lmax nx : ℕ) (xarray : ℕ → ℝ)
    (xromb : ℕ) (xwidth : Option ℝ) (q : ℕ) (mu w : ℕ → ℝ)
    (legP : ℕ → ℝ → ℝ) (rombC : ℕ → ℝ) : ℕ → ℕ → ℕ → ℝ :=
  fun l i j =>
    ∑ k ∈ Finset.range (q * lmax),
      legP l (mu k) * w k * 4 * Real.pi / (∑ kk ∈ Finset.range (q * lmax), w kk) *
        clCorrArr corr xarray xromb xwidth nx mu rombC k i j

/-- `corrfunc.corr_to_clarray`.  The guard models the node-batching
`np.array_split(np.arange(M), M // 50)` call, which raises when `M // 50 = 0`
sections are requested. -/
noncomputable def corrToClarray (corr : ℝ → ℝ) (lmax nx : ℕ) (xarray : ℕ → ℝ)
    (xromb : ℕ) (xwidth : Option ℝ) (q : ℕ) (mu w : ℕ → ℝ)
    (legP : ℕ → ℝ → ℝ) (rombC : ℕ → ℝ) : Option (ℕ → ℕ → ℕ → ℝ) :=
  if q * lmax / 50 = 0 then none
  else some (clarrayCore corr lmax nx xarray xromb xwidth q mu w legP rombC)

end Cora

/-- The law-of-cosines radius is symmetric under swapping the two distances. -/
theorem Cora.lawOfCosinesR_symm (m u v : ℝ) :
    Cora.lawOfCosinesR m u v = Cora.lawOfCosinesR m v u := by
  unfold Cora.lawOfCosinesR
  congr 1
  ring

/-- Each `corr_array` entry is symmetric in the two distance indices. -/
theorem Cora.clCorrArr_symm (corr : ℝ → ℝ) (xarray : ℕ → ℝ) (xromb : ℕ)
    (xwidth : Option ℝ) (nx : ℕ) (mu rombC : ℕ → ℝ) (k i j : ℕ) :
    Cora.clCorrArr corr xarray xromb xwidth nx mu rombC k i j
      = Cora.clCorrArr corr xarray xromb xwidth nx mu rombC k j i := by
  unfold Cora.clCorrArr
  split_ifs with h
  · rw [Cora.lawOfCosinesR_symm]
  · set xhalf := Cora.clXhalf nx xarray xwidth with hxh
    set xint := 2 ^ xromb + 1 with hxi
    set xspace := Cora.clXspace nx xarray xwidth xromb with hxs
    congr 2
    have key : ∀ F : ℕ → ℕ → ℝ,
        (∑ a ∈ Finset.range xint, rombC a *
            (xspace * ∑ b ∈ Finset.range xint, rombC b * F a b))
          = ∑ a ∈ Finset.range xint, rombC a *
            (xspace * ∑ b ∈ Finset.range xint, rombC b * F b a) := by
      intro F
      simp_rw [Finset.mul_sum]
      rw [Finset.sum_comm]
      refine Finset.sum_congr rfl fun a _ => Finset.sum_congr rfl fun b _ => by ring
    rw [key fun a b => corr (Cora.lawOfCosinesR (mu k)
      (Cora.clXa xarray xhalf xromb i a) (Cora.clXa xarray xhalf xromb j b))]
    refine Finset.sum_congr rfl fun a _ => ?_
    congr 1
    congr 1
    refine Finset.sum_congr rfl fun b _ => ?_
    rw [Cora.lawOfCosinesR_symm]

/-- C4: whenever `corr_to_clarray` returns (the node batching needs
`q * lmax ≥ 50`), the returned angular covariance array satisfies
`C_l[i,j] = C_l[j,i]` for every multipole and every pair of distance indices,
for any real correlation function: the law-of-cosines radius is symmetric
under the distance swap and both Romberg passes use the same coefficients. -/
theorem Cora.clarray_symmetric (corr : ℝ → ℝ) (lmax nx : ℕ) (xarray : ℕ → ℝ)
    (xromb : ℕ) (xwidth : Option ℝ) (q : ℕ) (mu w : ℕ → ℝ)
    (legP : ℕ → ℝ → ℝ) (rombC : ℕ → ℝ) (hM : 50 ≤ q * lmax) :
    ∃ cl, Cora.corrToClarray corr lmax nx xarray xromb xwidth q mu w legP rombC
        = some cl ∧ ∀ l i j, cl l i j = cl l j i := by
  have hne : q * lmax / 50 ≠ 0 := by
    have h1 : 1 ≤ q * lmax / 50 := (Nat.one_le_div_iff (by norm_num)).mpr hM
    omega
  refine ⟨Cora.clarrayCore corr lmax nx xarray xromb xwidth q mu w legP rombC,
    by simp only [Cora.corrToClarray, if_neg hne], fun l i j => ?_⟩
  unfold Cora.clarrayCore
  refine Finset.sum_congr rfl fun k _ => ?_
  rw [Cora.clCorrArr_symm]

/-- Witness for C4 at `q = 50`, `lmax = 1` with concrete external inputs. -/
theorem Cora.clarray_symmetric_witness :
    50 ≤ 50 * 1 ∧ ∃ cl, Cora.corrToClarray (fun r => r) 1 1 (fun _ => 0) 0 none
        50 (fun _ => 0) (fun _ => 0) (fun _ _ => 0) (fun _ => 0) = some cl ∧
      ∀ l i j, cl l i j = cl l j i :=
  ⟨by norm_num, Cora.clarray_symmetric (fun r => r) 1 1 (fun _ => 0) 0 none 50
    (fun _ => 0) (fun _ => 0) (fun _ _ => 0) (fun _ => 0) (by norm_num)⟩

/-- C10: `corr_to_clarray` has the undocumented precondition `q * lmax ≥ 50`:
the node-batching step `np.array_split(np.arange(M), M // 50)` raises and no
`C_l` array is produced exactly when the number of quadrature nodes
`M = q * lmax` is below 50 (so that `M // 50 = 0` sections are requested),
even for otherwise valid inputs such as the default `q = 2` with `lmax < 25`. -/
theorem Cora.corr_to_clarray_batch_precondition (corr : ℝ → ℝ) (lmax nx : ℕ)
    (xarray : ℕ → ℝ) (xromb : ℕ) (xwidth : Option ℝ) (q : ℕ) (mu w : ℕ → ℝ)
    (legP : ℕ → ℝ → ℝ) (rombC : ℕ → ℝ) :
    Cora.corrToClarray corr lmax nx xarray xromb xwidth q mu w legP rombC = none
      ↔ q * lmax < 50 := by
  by_cases h : q * lmax / 50 = 0
  · simp only [Cora.corrToClarray, if_pos h, true_iff]
    exact (Nat.div_eq_zero_iff (by norm_num)).mp h
  · simp only [Cora.corrToClarray, if_neg h, reduceCtorEq, false_iff]
    intro hlt
    exact h ((Nat.div_eq_zero_iff (by norm_num)).mpr hlt)

namespace Cora

/-! ## The radius grid of `corrfunc.ps_to_corr`

The radius array returned by `ps_to_corr` (default FFTLog large-r path) does
not depend on the power spectrum: it is the direct-integration grid
`np.logspace(minlogr, switchlogr, int((switchlogr-minlogr)*samples_per_decade),
endpoint=False)` with the zero-lag point inserted in front, concatenated with
the Richardson-Hankel grid trimmed to `[switchlogr, maxlogr]` in `log10 r`. -/

/-- The low-`r` (direct integration) grid of `ps_to_corr`. -/
noncomputable def psToCorrRlow (minlogr switchlogr : ℝ) (spd : ℕ) : List ℝ :=
  (List.range ⌊(switchlogr - minlogr) * spd⌋₊).map fun i : ℕ =>
    (10 : ℝ) ^ (minlogr + (i : ℝ) * (switchlogr - minlogr) /
      (⌊(switchlogr - minlogr) * spd⌋₊ : ℕ))

/-- The high-`r` (Richardson-Hankel) grid of `ps_to_corr`: the common
decimated grid, masked to the requested log-radius window. -/
noncomputable def psToCorrRhigh (switchlogr maxlogr : ℝ) (spd : ℕ) : List ℝ :=
  ((List.range ⌊(spd : ℝ) * (maxlogr + 1 - (switchlogr - 2))⌋₊).map fun m =>
      decimatedRGrid switchlogr maxlogr spd 0 m).filter fun r =>
    decide (switchlogr ≤ Real.logb 10 r ∧ Real.logb 10 r ≤ maxlogr)

/-- The full radius array of `ps_to_corr`: zero-lag point, low-`r` grid,
then the high-`r` grid. -/
noncomputable def psToCorrRadii (minlogr switchlogr maxlogr : ℝ) (spd : ℕ) :
    List ℝ :=
  0 :: (psToCorrRlow minlogr switchlogr spd ++ psToCorrRhigh switchlogr maxlogr spd)

end Cora

/-- A list mapped over `range n` is strictly increasing if the function is
strictly increasing below `n`. -/
theorem Cora.list_pairwise_map_range {n : ℕ} {f : ℕ → ℝ}
    (h : ∀ i j, i < j → j < n → f i < f j) :
    ((List.range n).map f).Pairwise (· < ·) := by
  rw [List.pairwise_map, List.pairwise_iff_getElem]
  intro i j hi hj hij
  simp only [List.getElem_range]
  exact h _ _ hij (by simpa using hj)

/-- Closed form of the first-factor decimated radius grid. -/
theorem Cora.decimatedRGrid_zero_eq (logrmin logrmax : ℝ) (spd m : ℕ) :
    Cora.decimatedRGrid logrmin logrmax spd 0 m
      = ((10 : ℝ) ^ (-(logrmax + 1) +
          ((⌊(spd : ℝ) * (logrmax + 1 - (logrmin - 2))⌋₊ - 1 - m : ℕ) : ℝ)
            * (logrmax + 1 - (logrmin - 2))
            / (⌊(spd : ℝ) * (logrmax + 1 - (logrmin - 2))⌋₊ : ℕ)))⁻¹ := by
  simp [Cora.decimatedRGrid, Cora.hanklRGrid, Cora.hanklKGrid]

/-- Every element of the high-`r` grid is positive. -/
theorem Cora.psToCorrRhigh_mem_pos {switchlogr maxlogr : ℝ} {spd : ℕ} {b : ℝ}
    (hb : b ∈ Cora.psToCorrRhigh switchlogr maxlogr spd) : 0 < b := by
  obtain ⟨hmem, -⟩ := List.mem_filter.mp hb
  obtain ⟨m, -, rfl⟩ := List.mem_map.mp hmem
  rw [Cora.decimatedRGrid_zero_eq]
  exact inv_pos.mpr (Real.rpow_pos_of_pos (by norm_num) _)

/-- Every element of the high-`r` grid sits at or above the switch radius. -/
theorem Cora.psToCorrRhigh_mem_ge {switchlogr maxlogr : ℝ} {spd : ℕ} {b : ℝ}
    (hb : b ∈ Cora.psToCorrRhigh switchlogr maxlogr spd) :
    (10 : ℝ) ^ switchlogr ≤ b := by
  have hpos := Cora.psToCorrRhigh_mem_pos hb
  obtain ⟨-, hp⟩ := List.mem_filter.mp hb
  have hsw : switchlogr ≤ Real.logb 10 b := (of_decide_eq_true hp).1
  calc (10 : ℝ) ^ switchlogr
      ≤ (10 : ℝ) ^ Real.logb 10 b :=
        (Real.rpow_le_rpow_left_iff (by norm_num)).mpr hsw
    _ = b := Real.rpow_logb (by norm_num) (by norm_num) hpos

/-- Every element of the low-`r` grid is positive and below the switch
radius. -/
theorem Cora.psToCorrRlow_mem_bounds {minlogr switchlogr : ℝ} {spd : ℕ} {a : ℝ}
    (hms : minlogr < switchlogr)
    (ha : a ∈ Cora.psToCorrRlow minlogr switchlogr spd) :
    0 < a ∧ a < (10 : ℝ) ^ switchlogr := by
  unfold Cora.psToCorrRlow at ha
  obtain ⟨i, hi, rfl⟩ := List.mem_map.mp ha
  have hiN := List.mem_range.mp hi
  refine ⟨Real.rpow_pos_of_pos (by norm_num) _, ?_⟩
  rw [Real.rpow_lt_rpow_left_iff (by norm_num : (1 : ℝ) < 10)]
  have hN : (0 : ℝ) < (⌊(switchlogr - minlogr) * spd⌋₊ : ℕ) := by
    exact_mod_cast lt_of_le_of_lt (Nat.zero_le i) hiN
  have hd : 0 < switchlogr - minlogr := by linarith
  have h1 : (i : ℝ) / (⌊(switchlogr - minlogr) * spd⌋₊ : ℕ) < 1 := by
    rw [div_lt_one hN]
    exact_mod_cast hiN
  have h2 : (i : ℝ) * (switchlogr - minlogr) /
      (⌊(switchlogr - minlogr) * spd⌋₊ : ℕ) < switchlogr - minlogr := by
    calc (i : ℝ) * (switchlogr - minlogr) / (⌊(switchlogr - minlogr) * spd⌋₊ : ℕ)
        = ((i : ℝ) / (⌊(switchlogr - minlogr) * spd⌋₊ : ℕ))
          * (switchlogr - minlogr) := by ring
      _ < 1 * (switchlogr - minlogr) := by
          exact mul_lt_mul_of_pos_right h1 hd
      _ = switchlogr - minlogr := one_mul _
  linarith

/-- The low-`r` grid is strictly increasing. -/
theorem Cora.psToCorrRlow_pairwise (minlogr switchlogr : ℝ) (spd : ℕ)
    (hms : minlogr < switchlogr) :
    (Cora.psToCorrRlow minlogr switchlogr spd).Pairwise (· < ·) := by
  unfold Cora.psToCorrRlow
  apply Cora.list_pairwise_map_range
  intro i j hij hjN
  rw [Real.rpow_lt_rpow_left_iff (by norm_num : (1 : ℝ) < 10)]
  have hN : (0 : ℝ) < (⌊(switchlogr - minlogr) * spd⌋₊ : ℕ) := by
    exact_mod_cast lt_of_le_of_lt (Nat.zero_le j) hjN
  have hd : 0 < switchlogr - minlogr := by linarith
  have hij' : (i : ℝ) < j := by exact_mod_cast hij
  apply add_lt_add_left
  rw [div_lt_div_iff_of_pos_right hN]
  exact mul_lt_mul_of_pos_right hij' hd

/-- The high-`r` grid is strictly increasing. -/
theorem Cora.psToCorrRhigh_pairwise (switchlogr maxlogr : ℝ) (spd : ℕ)
    (hsm : switchlogr < maxlogr) :
    (Cora.psToCorrRhigh switchlogr maxlogr spd).Pairwise (· < ·) := by
  unfold Cora.psToCorrRhigh
  apply List.Pairwise.filter
  apply Cora.list_pairwise_map_range
  intro m m2 hmm hm2n
  rw [Cora.decimatedRGrid_zero_eq, Cora.decimatedRGrid_zero_eq]
  have hnpos : 0 < ⌊(spd : ℝ) * (maxlogr + 1 - (switchlogr - 2))⌋₊ :=
    lt_of_le_of_lt (Nat.zero_le m2) hm2n
  have hdd : (0 : ℝ) < maxlogr + 1 - (switchlogr - 2) := by linarith
  apply inv_strictAnti₀
  · exact Real.rpow_pos_of_pos (by norm_num) _
  · rw [Real.rpow_lt_rpow_left_iff (by norm_num : (1 : ℝ) < 10)]
    have hsubs : ⌊(spd : ℝ) * (maxlogr + 1 - (switchlogr - 2))⌋₊ - 1 - m2
        < ⌊(spd : ℝ) * (maxlogr + 1 - (switchlogr - 2))⌋₊ - 1 - m := by omega
    have hc : ((⌊(spd : ℝ) * (maxlogr + 1 - (switchlogr - 2))⌋₊ - 1 - m2 : ℕ) : ℝ)
        < ((⌊(spd : ℝ) * (maxlogr + 1 - (switchlogr - 2))⌋₊ - 1 - m : ℕ) : ℝ) := by
      exact_mod_cast hsubs
    have hN : (0 : ℝ) < (⌊(spd : ℝ) * (maxlogr + 1 - (switchlogr - 2))⌋₊ : ℕ) := by
      exact_mod_cast hnpos
    apply add_lt_add_left
    rw [div_lt_div_iff_of_pos_right hN]
    exact mul_lt_mul_of_pos_right hc hdd

/-- C9: for every `minlogr < switchlogr < maxlogr` and `samples_per_decade ≥ 1`
(and independently of the power spectrum), the radius array of `ps_to_corr`
has the explicitly computed zero-lag point 0 as its first element and is
strictly increasing throughout, including across the concatenation point
where the direct-integration grid joins the transform grid. -/
theorem Cora.ps_to_corr_radii_invariant (minlogr switchlogr maxlogr : ℝ)
    (spd : ℕ) (hms : minlogr < switchlogr) (hsm : switchlogr < maxlogr)
    (_hspd : 1 ≤ spd) :
    (Cora.psToCorrRadii minlogr switchlogr maxlogr spd).head? = some 0 ∧
      (Cora.psToCorrRadii minlogr switchlogr maxlogr spd).Pairwise (· < ·) := by
  refine ⟨rfl, ?_⟩
  rw [Cora.psToCorrRadii, List.pairwise_cons]
  constructor
  · intro b hb
    rcases List.mem_append.mp hb with hbl | hbh
    · exact (Cora.psToCorrRlow_mem_bounds hms hbl).1
    · exact Cora.psToCorrRhigh_mem_pos hbh
  · rw [List.pairwise_append]
    refine ⟨Cora.psToCorrRlow_pairwise _ _ _ hms,
      Cora.psToCorrRhigh_pairwise _ _ _ hsm, fun a ha b hb => ?_⟩
    calc a < (10 : ℝ) ^ switchlogr := (Cora.psToCorrRlow_mem_bounds hms ha).2
      _ ≤ b := Cora.psToCorrRhigh_mem_ge hb

/-- Witness for C9 at `minlogr = 0`, `switchlogr = 1`, `maxlogr = 2`,
one sample per decade. -/
theorem Cora.ps_to_corr_radii_invariant_witness :
    (0 : ℝ) < 1 ∧ (1 : ℝ) < 2 ∧ 1 ≤ 1 ∧
      ((Cora.psToCorrRadii 0 1 2 1).head? = some 0 ∧
        (Cora.psToCorrRadii 0 1 2 1).Pairwise (· < ·)) :=
  ⟨by norm_num, by norm_num, le_refl 1,
    Cora.ps_to_corr_radii_invariant 0 1 2 1 (by norm_num) (by norm_num) (le_refl 1)⟩
